import Mathlib

/-!
Shallow embedding of the dependency-graph core of
`src/leapp/snactor/commands/discover.py` (class `RepositoryGraph` and
`construct_graph_from_actors`), together with proofs of the specified
properties.

Representation notes (mapping Python state to Lean values):

* The Python graph stores edges as a nested mapping
  `edges : defaultdict(source -> defaultdict(target -> set of message types))`.
  In every state reachable through the public operations (`add_edge`,
  `construct_graph_from_actors`, `make_subgraph_related_to`) each inner
  label set is non-empty, so the nested mapping is fully determined by the
  set of triples `(source, message, target)`; we represent it by that
  `Finset`.
* `defaultdict.__getitem__` on a missing key inserts a fresh empty value.
  The reachability scans perform such lookups (`self.edges[actor]`,
  `self.reverse_edges[actor]`), so the *key sets* of the two default
  dictionaries can contain keys whose value is empty.  These key sets are
  tracked separately as `edgeKeys` and `revKeys`; they carry no message
  data but are observable state of the Python object.
* Python `set` values are modelled by `Finset String`; iteration order of
  sets/dicts is unspecified in the source, so wherever the code iterates a
  set we iterate a canonically sorted list of the same elements.
-/

/-- A component descriptor as consumed by `construct_graph_from_actors`:
the actor's `class_name` and the `__name__`s of its produced and consumed
model classes. -/
structure ActorDef where
  class_name : String
  produces : List String
  consumes : List String
deriving DecidableEq


/-- Lexicographic comparison of char lists by code point. -/
def lexLeB : List Char → List Char → Bool
  | [], _ => true
  | _ :: _, [] => false
  | a :: as, b :: bs =>
      if a.val.toNat < b.val.toNat then true
      else if b.val.toNat < a.val.toNat then false
      else lexLeB as bs

def strLe (a b : String) : Prop := lexLeB a.data b.data = true

instance : DecidableRel strLe := fun a b => by
  unfold strLe; infer_instance

theorem lexLeB_total : ∀ as bs : List Char,
    lexLeB as bs = true ∨ lexLeB bs as = true := by
  intro as
  induction as with
  | nil => intro bs; exact Or.inl rfl
  | cons a as ih =>
      intro bs
      cases bs with
      | nil => exact Or.inr rfl
      | cons b bs =>
          simp only [lexLeB]
          rcases ih bs with h | h <;>
            split_ifs <;> simp_all <;> omega

theorem lexLeB_trans : ∀ as bs cs : List Char,
    lexLeB as bs = true → lexLeB bs cs = true → lexLeB as cs = true := by
  intro as
  induction as with
  | nil => intro bs cs _ _; rfl
  | cons a as ih =>
      intro bs cs h1 h2
      cases bs with
      | nil => simp [lexLeB] at h1
      | cons b bs =>
          cases cs with
          | nil => simp [lexLeB] at h2
          | cons c cs =>
              simp only [lexLeB] at h1 h2 ⊢
              split_ifs at h1 h2 ⊢ <;>
                first
                  | rfl
                  | omega
                  | (exact ih bs cs h1 h2)
                  | simp_all

theorem lexLeB_antisymm : ∀ as bs : List Char,
    lexLeB as bs = true → lexLeB bs as = true → as = bs := by
  intro as
  induction as with
  | nil =>
      intro bs _ h2
      cases bs with
      | nil => rfl
      | cons b bs => simp [lexLeB] at h2
  | cons a as ih =>
      intro bs h1 h2
      cases bs with
      | nil => simp [lexLeB] at h1
      | cons b bs =>
          simp only [lexLeB] at h1 h2
          split_ifs at h1 h2 <;> try omega
          · have hab : a = b := Char.ext (UInt32.ext (by omega))
            rw [hab, ih bs h1 h2]
          all_goals simp_all

instance : IsTotal String strLe := ⟨fun a b => lexLeB_total a.data b.data⟩

instance : IsTrans String strLe :=
  ⟨fun a b c h1 h2 => lexLeB_trans a.data b.data c.data h1 h2⟩

instance : IsAntisymm String strLe :=
  ⟨fun a b h1 h2 => by
    have := lexLeB_antisymm a.data b.data h1 h2
    cases a; cases b; exact congrArg String.mk this⟩

/-- Deterministic, kernel-computable enumeration of a finite string set
(ascending code-point order), standing in for Python set iteration. -/
def sortedList (s : Finset String) : List String :=
  Quot.liftOn s.val (fun l => l.insertionSort strLe)
    (fun l1 l2 h =>
      List.eq_of_perm_of_sorted
        ((List.perm_insertionSort strLe l1).trans
          (h.trans (List.perm_insertionSort strLe l2).symm))
        (List.sorted_insertionSort strLe l1)
        (List.sorted_insertionSort strLe l2))

theorem mem_sortedList {s : Finset String} {x : String} :
    x ∈ sortedList s ↔ x ∈ s := by
  rcases s with ⟨m, hm⟩
  revert hm
  refine Quot.inductionOn m ?_
  intro l hl
  show x ∈ l.insertionSort strLe ↔ _
  rw [(List.perm_insertionSort strLe l).mem_iff]
  simp [Finset.mem_def]

theorem sortedList_nodup (s : Finset String) : (sortedList s).Nodup := by
  rcases s with ⟨m, hm⟩
  revert hm
  refine Quot.inductionOn m ?_
  intro l hl
  exact ((List.perm_insertionSort strLe l).nodup_iff).mpr hl

theorem length_sortedList (s : Finset String) :
    (sortedList s).length = s.card := by
  rcases s with ⟨m, hm⟩
  revert hm
  refine Quot.inductionOn m ?_
  intro l hl
  exact (List.perm_insertionSort strLe l).length_eq

/-- The dependency graph of `discover.py` (`class RepositoryGraph`).
`edges` is the set of `(source_actor, message, target_actor)` triples;
`edgeKeys` the outer key set of the `edges` defaultdict; `reverse_edges`
the set of `(target_actor, source_actor)` pairs stored in the reverse
index; `revKeys` the key set of the `reverse_edges` defaultdict; `actors`
the node set. -/
structure RepositoryGraph where
  edges : Finset (String × String × String)
  edgeKeys : Finset String
  reverse_edges : Finset (String × String)
  revKeys : Finset String
  actors : Finset String
deriving DecidableEq

/-- `RepositoryGraph.__init__`: all containers start empty. -/
def RepositoryGraph.emptyGraph : RepositoryGraph :=
  ⟨∅, ∅, ∅, ∅, ∅⟩

/-- `RepositoryGraph.add_edge(source_actor, msg, target_actor)`:
registers both endpoints in `actors`, inserts the message into the label
set of the `(source, target)` edge (creating the corresponding outer key),
and records the reverse entry (creating its key). -/
def RepositoryGraph.add_edge (g : RepositoryGraph)
    (source_actor msg target_actor : String) : RepositoryGraph :=
  { actors := insert target_actor (insert source_actor g.actors)
    edges := insert (source_actor, msg, target_actor) g.edges
    edgeKeys := insert source_actor g.edgeKeys
    reverse_edges := insert (target_actor, source_actor) g.reverse_edges
    revKeys := insert target_actor g.revKeys }

/-- The label set of the edge from `source` to `target`
(the Python value `self.edges[source][target]`). -/
def RepositoryGraph.labelSet (g : RepositoryGraph) (source target : String) :
    Finset String :=
  (g.edges.filter fun e => e.1 = source ∧ e.2.2 = target).image fun e => e.2.1

/-- The sources that own at least one edge entry
(the outer keys of `self.edges` that carry data). -/
def RepositoryGraph.edgeSources (g : RepositoryGraph) : Finset String :=
  g.edges.image fun e => e.1

/-- The inner key set `self.edges[s].keys()` (targets with an entry). -/
def RepositoryGraph.targetsOf (g : RepositoryGraph) (s : String) : Finset String :=
  (g.edges.filter fun e => e.1 = s).image fun e => e.2.2

/-- `RepositoryGraph.iter_edges`: yields one `(source, message, target)`
triple per (edge, label) combination, iterating sources, then targets,
then the label set, as the nested Python loops do (each level in sorted
order, standing in for the unspecified dict/set iteration order). -/
def RepositoryGraph.iter_edges (g : RepositoryGraph) :
    List (String × String × String) :=
  (sortedList g.edgeSources).flatMap fun s =>
    (sortedList (g.targetsOf s)).flatMap fun t =>
      (sortedList (g.labelSet s t)).map fun m => (s, m, t)

/-- The node-declaration lines of `into_dot`
(`'{0} [label={0}]'.format(actor)` for each actor). -/
def dotNodeLines (g : RepositoryGraph) : List String :=
  (sortedList g.actors).map fun a => a ++ " [label=" ++ a ++ "]"

/-- The edge-declaration lines of `into_dot`
(`'{source} -> {target} [label={msg}]'` per `iter_edges` triple). -/
def dotEdgeLines (g : RepositoryGraph) : List String :=
  g.iter_edges.map fun e => e.1 ++ " -> " ++ e.2.2 ++ " [label=" ++ e.2.1 ++ "]"

/-- Python `'\n'.join(lines)`. -/
def joinLines : List String → String
  | [] => ""
  | [x] => x
  | x :: y :: xs => x ++ "\n" ++ joinLines (y :: xs)

/-- `RepositoryGraph.into_dot`: the template
`'{header}\n {nodes}\n {edges}\n {footer}\n'` filled with the header
block, the joined node lines, the joined edge lines and the footer. -/
def RepositoryGraph.into_dot (g : RepositoryGraph) : String :=
  "digraph \"leapp-actors\" \x7b\nnodesep=2\nranksep=2\nrankdir=LR" ++ "\n " ++
    joinLines (dotNodeLines g) ++ "\n " ++
    joinLines (dotEdgeLines g) ++ "\n " ++ "\x7d" ++ "\n"

/-- `RepositoryGraph._collect_actors_for_entities`: folds over the entity
list; a known component name joins both seed sets, otherwise the entity is
read as a message type and, for every edge labelled with it, the edge's
target joins the forward seeds and its source the backward seeds.  The
per-edge insertion loop is rendered as the union with the corresponding
image. Returns `(forward_actors, backward_actors)`. -/
def collectStep (g : RepositoryGraph) (fb : Finset String × Finset String)
    (leapp_entity : String) : Finset String × Finset String :=
  if leapp_entity ∈ g.actors then (insert leapp_entity fb.1, insert leapp_entity fb.2)
  else
    (fb.1 ∪ (g.edges.filter fun tr => tr.2.1 = leapp_entity).image fun tr => tr.2.2,
     fb.2 ∪ (g.edges.filter fun tr => tr.2.1 = leapp_entity).image fun tr => tr.1)

def RepositoryGraph.collect_actors_for_entities (g : RepositoryGraph)
    (leapp_entities : List String) : Finset String × Finset String :=
  leapp_entities.foldl (collectStep g) (∅, ∅)

/-- Forward neighbours of `a`: the keys of `self.edges[a]`, i.e. the
targets of edges leaving `a` (in sorted order). -/
def RepositoryGraph.fwdAdj (g : RepositoryGraph) (a : String) : List String :=
  sortedList ((g.edges.filter fun e => e.1 = a).image fun e => e.2.2)

/-- Backward neighbours of `a`: the members of `self.reverse_edges[a]`
(in sorted order). -/
def RepositoryGraph.bwdAdj (g : RepositoryGraph) (a : String) : List String :=
  sortedList ((g.reverse_edges.filter fun e => e.1 = a).image fun e => e.2)

/-- Neighbour list of `_dfs_graph_scan`'s body: the forward loop followed
by the backward loop. -/
def RepositoryGraph.undirAdj (g : RepositoryGraph) (a : String) : List String :=
  g.fwdAdj a ++ g.bwdAdj a

/-- The inner loop shared by all three scans: for each neighbour not yet
visited, mark it visited and push it on the worklist. Returns the updated
`(worklist, visited)` pair. -/
def pushNew (neighbors : List String) (worklist : List String)
    (visited : Finset String) : List String × Finset String :=
  neighbors.foldl
    (fun acc n => if n ∈ acc.2 then acc else (n :: acc.1, insert n acc.2))
    (worklist, visited)

theorem pushNew_nil (wl : List String) (vis : Finset String) :
    pushNew [] wl vis = (wl, vis) := rfl

theorem pushNew_cons (n : String) (ns wl : List String) (vis : Finset String) :
    pushNew (n :: ns) wl vis =
      if n ∈ vis then pushNew ns wl vis else pushNew ns (n :: wl) (insert n vis) := by
  by_cases h : n ∈ vis <;> simp [pushNew, h]

theorem pushNew_mem_visited {ns wl : List String} {vis : Finset String}
    {x : String} : x ∈ (pushNew ns wl vis).2 ↔ x ∈ vis ∨ x ∈ ns := by
  induction ns generalizing wl vis with
  | nil => simp [pushNew_nil]
  | cons n ns ih =>
      rw [pushNew_cons]
      by_cases h : n ∈ vis
      · simp only [if_pos h, ih, List.mem_cons]
        constructor
        · rintro (hx | hx)
          · exact Or.inl hx
          · exact Or.inr (Or.inr hx)
        · rintro (hx | rfl | hx)
          · exact Or.inl hx
          · exact Or.inl h
          · exact Or.inr hx
      · simp only [if_neg h, ih, Finset.mem_insert, List.mem_cons]
        tauto

theorem pushNew_visited_mono {ns wl : List String} {vis : Finset String}
    {x : String} (hx : x ∈ vis) : x ∈ (pushNew ns wl vis).2 :=
  pushNew_mem_visited.mpr (Or.inl hx)

theorem pushNew_worklist_mono {ns wl : List String} {vis : Finset String}
    {x : String} (hx : x ∈ wl) : x ∈ (pushNew ns wl vis).1 := by
  induction ns generalizing wl vis with
  | nil => simpa [pushNew_nil] using hx
  | cons n ns ih =>
      rw [pushNew_cons]
      by_cases h : n ∈ vis
      · simp only [if_pos h]; exact ih hx
      · simp only [if_neg h]; exact ih (List.mem_cons_of_mem n hx)

theorem pushNew_mem_worklist {ns wl : List String} {vis : Finset String}
    {x : String} (hx : x ∈ (pushNew ns wl vis).1) : x ∈ wl ∨ x ∈ ns := by
  induction ns generalizing wl vis with
  | nil => rw [pushNew_nil] at hx; exact Or.inl hx
  | cons n ns ih =>
      rw [pushNew_cons] at hx
      by_cases h : n ∈ vis
      · rw [if_pos h] at hx
        rcases ih hx with h1 | h1
        · exact Or.inl h1
        · exact Or.inr (List.mem_cons_of_mem n h1)
      · rw [if_neg h] at hx
        rcases ih hx with h1 | h1
        · rcases List.mem_cons.mp h1 with rfl | h2
          · exact Or.inr (List.mem_cons_self _ _)
          · exact Or.inl h2
        · exact Or.inr (List.mem_cons_of_mem n h1)

theorem pushNew_new_mem_worklist {ns wl : List String} {vis : Finset String}
    {x : String} (hx : x ∈ (pushNew ns wl vis).2) (hnot : x ∉ vis) :
    x ∈ (pushNew ns wl vis).1 := by
  induction ns generalizing wl vis with
  | nil => rw [pushNew_nil] at hx; exact absurd hx hnot
  | cons n ns ih =>
      rw [pushNew_cons] at hx ⊢
      by_cases h : n ∈ vis
      · rw [if_pos h] at hx ⊢; exact ih hx hnot
      · rw [if_neg h] at hx ⊢
        by_cases hxn : x ∈ insert n vis
        · rcases Finset.mem_insert.mp hxn with rfl | h2
          · exact pushNew_worklist_mono (List.mem_cons_self _ _)
          · exact absurd h2 hnot
        · exact ih hx hxn

theorem pushNew_card {ns wl : List String} {vis : Finset String} :
    (pushNew ns wl vis).2.card + wl.length =
      vis.card + (pushNew ns wl vis).1.length := by
  induction ns generalizing wl vis with
  | nil => simp [pushNew_nil]
  | cons n ns ih =>
      rw [pushNew_cons]
      by_cases h : n ∈ vis
      · simp only [if_pos h]; exact ih
      · simp only [if_neg h]
        have := @ih (n :: wl) (insert n vis)
        rw [Finset.card_insert_of_not_mem h] at this
        simp only [List.length_cons] at this
        omega

/-- The worklist loop shared by `_dfs_graph_scan`, `_forward_scan` and
`_backward_scan`: pop an actor, mark and push its unvisited neighbours,
repeat until the worklist is empty.  `popped` accumulates the actors that
have been popped (each pop performs the defaultdict lookups that create
dictionary keys, so this set is needed to model that side effect).  The
bounding set `U` together with the two membership proofs only serves
termination. -/
def scanLoop (adj : String → List String) (U : Finset String)
    (hadj : ∀ a, ∀ n ∈ adj a, n ∈ U) :
    (worklist : List String) → (visited : Finset String) →
    (∀ x ∈ visited, x ∈ U) → (popped : Finset String) →
    Finset String × Finset String
  | [], visited, _, popped => (visited, popped)
  | actor :: rest, visited, hvis, popped =>
      scanLoop adj U hadj (pushNew (adj actor) rest visited).1
        (pushNew (adj actor) rest visited).2
        (fun x hx => by
          rcases pushNew_mem_visited.mp hx with h | h
          · exact hvis x h
          · exact hadj actor x h)
        (insert actor popped)
termination_by wl vis _ _ => (U \ vis).card + wl.length
decreasing_by
  simp only [List.length_cons]
  have hsub : visited ⊆ U := fun x hx => hvis x hx
  have hsub2 : (pushNew (adj actor) rest visited).2 ⊆ U := fun x hx => by
    rcases pushNew_mem_visited.mp hx with h | h
    · exact hvis x h
    · exact hadj actor x h
  have hmono : visited ⊆ (pushNew (adj actor) rest visited).2 :=
    fun x hx => pushNew_visited_mono hx
  have hcard := @pushNew_card (adj actor) rest visited
  have h1 := Finset.card_sdiff hsub
  have h2 := Finset.card_sdiff hsub2
  have h3 := Finset.card_le_card hsub
  have h4 := Finset.card_le_card hsub2
  have h5 := Finset.card_le_card hmono
  omega

/-- Reachability along the neighbour function `adj` starting from the set
`start`: the specification the worklist scans compute. -/
inductive Reaches (adj : String → List String) (start : Finset String) :
    String → Prop
  | base {a : String} : a ∈ start → Reaches adj start a
  | step {a b : String} : Reaches adj start a → b ∈ adj a →
      Reaches adj start b

theorem Reaches.mono {adj adj2 : String → List String}
    {start start2 : Finset String} {x : String}
    (h : Reaches adj start x) (hs : start ⊆ start2)
    (ha : ∀ a n, n ∈ adj a → n ∈ adj2 a) : Reaches adj2 start2 x := by
  induction h with
  | base hx => exact Reaches.base (hs hx)
  | step _ hn ih => exact Reaches.step ih (ha _ _ hn)

theorem Reaches.subset_closed {adj : String → List String}
    {start T : Finset String} {x : String}
    (h : Reaches adj start x) (hs : ∀ a ∈ start, a ∈ T)
    (hc : ∀ a ∈ T, ∀ n ∈ adj a, n ∈ T) : x ∈ T := by
  induction h with
  | base hx => exact hs _ hx
  | step _ hn ih => exact hc _ ih _ hn

/-- Combined worklist-loop invariants: the loop only grows the visited
set, everything it visits is reachable from any set `S` covering the
initial visited set, the final visited set is closed under `adj`, and
every visited node ends up popped. -/
theorem scanLoop_spec (adj : String → List String) (U : Finset String)
    (hadj : ∀ a, ∀ n ∈ adj a, n ∈ U) (S : Finset String)
    (wl : List String) (vis : Finset String) (hvis : ∀ x ∈ vis, x ∈ U)
    (popped : Finset String) :
    (∀ x ∈ wl, x ∈ vis) →
    (∀ a ∈ vis, a ∈ wl ∨ ∀ n ∈ adj a, n ∈ vis) →
    (∀ x ∈ vis, x ∈ popped ∨ x ∈ wl) →
    (∀ x ∈ vis, Reaches adj S x) →
    (∀ x ∈ vis, x ∈ (scanLoop adj U hadj wl vis hvis popped).1) ∧
    (∀ x ∈ (scanLoop adj U hadj wl vis hvis popped).1, Reaches adj S x) ∧
    (∀ a ∈ (scanLoop adj U hadj wl vis hvis popped).1, ∀ n ∈ adj a,
        n ∈ (scanLoop adj U hadj wl vis hvis popped).1) ∧
    (∀ x ∈ (scanLoop adj U hadj wl vis hvis popped).1,
        x ∈ (scanLoop adj U hadj wl vis hvis popped).2) := by
  induction wl, vis, hvis, popped using scanLoop.induct adj U hadj with
  | case1 vis hvis popped hU =>
      intro _ hcl hpop hreach
      simp only [scanLoop]
      refine ⟨fun x hx => hx, fun x hx => hreach x hx, ?_, ?_⟩
      · intro a ha n hn
        rcases hcl a ha with h1 | h1
        · cases h1
        · exact h1 n hn
      · intro x hx
        rcases hpop x hx with h1 | h1
        · exact h1
        · cases h1
  | case2 actor rest vis hvis popped hU ih =>
      intro hwl hcl hpop hreach
      have hactor : actor ∈ vis := hwl actor (List.mem_cons_self _ _)
      have hwl2 : ∀ x ∈ (pushNew (adj actor) rest vis).1,
          x ∈ (pushNew (adj actor) rest vis).2 := by
        intro x hx
        rcases pushNew_mem_worklist hx with h1 | h1
        · exact pushNew_visited_mono (hwl x (List.mem_cons_of_mem _ h1))
        · exact pushNew_mem_visited.mpr (Or.inr h1)
      have hcl2 : ∀ a ∈ (pushNew (adj actor) rest vis).2,
          a ∈ (pushNew (adj actor) rest vis).1 ∨
            ∀ n ∈ adj a, n ∈ (pushNew (adj actor) rest vis).2 := by
        intro a ha
        by_cases hav : a ∈ vis
        · rcases hcl a hav with h1 | h1
          · rcases List.mem_cons.mp h1 with rfl | h2
            · exact Or.inr fun n hn => pushNew_mem_visited.mpr (Or.inr hn)
            · exact Or.inl (pushNew_worklist_mono h2)
          · exact Or.inr fun n hn =>
              pushNew_visited_mono (h1 n hn)
        · exact Or.inl (pushNew_new_mem_worklist ha hav)
      have hpop2 : ∀ x ∈ (pushNew (adj actor) rest vis).2,
          x ∈ insert actor popped ∨ x ∈ (pushNew (adj actor) rest vis).1 := by
        intro x hx
        by_cases hxv : x ∈ vis
        · rcases hpop x hxv with h1 | h1
          · exact Or.inl (Finset.mem_insert_of_mem h1)
          · rcases List.mem_cons.mp h1 with rfl | h2
            · exact Or.inl (Finset.mem_insert_self _ _)
            · exact Or.inr (pushNew_worklist_mono h2)
        · exact Or.inr (pushNew_new_mem_worklist hx hxv)
      have hreach2 : ∀ x ∈ (pushNew (adj actor) rest vis).2, Reaches adj S x := by
        intro x hx
        rcases pushNew_mem_visited.mp hx with h1 | h1
        · exact hreach x h1
        · exact Reaches.step (hreach actor hactor) h1
      have := ih hwl2 hcl2 hpop2 hreach2
      simp only [scanLoop]
      exact ⟨fun x hx => this.1 x (pushNew_visited_mono hx),
             this.2.1, this.2.2.1, this.2.2.2⟩

theorem mem_fwdAdj {g : RepositoryGraph} {a n : String} :
    n ∈ g.fwdAdj a ↔ ∃ m, (a, m, n) ∈ g.edges := by
  simp only [RepositoryGraph.fwdAdj, mem_sortedList, Finset.mem_image,
    Finset.mem_filter]
  constructor
  · rintro ⟨e, ⟨he, rfl⟩, rfl⟩
    exact ⟨e.2.1, he⟩
  · rintro ⟨m, hm⟩
    exact ⟨(a, m, n), ⟨hm, rfl⟩, rfl⟩

theorem mem_bwdAdj {g : RepositoryGraph} {a n : String} :
    n ∈ g.bwdAdj a ↔ (a, n) ∈ g.reverse_edges := by
  simp only [RepositoryGraph.bwdAdj, mem_sortedList, Finset.mem_image,
    Finset.mem_filter]
  constructor
  · rintro ⟨e, ⟨he, rfl⟩, rfl⟩
    exact he
  · intro h
    exact ⟨(a, n), ⟨h, rfl⟩, rfl⟩

theorem mem_undirAdj {g : RepositoryGraph} {a n : String} :
    n ∈ g.undirAdj a ↔ (∃ m, (a, m, n) ∈ g.edges) ∨ (a, n) ∈ g.reverse_edges := by
  simp only [RepositoryGraph.undirAdj, List.mem_append, mem_fwdAdj, mem_bwdAdj]

/-- The bounding set used only for termination of the scans: everything a
neighbour list can ever produce. -/
def RepositoryGraph.nodeUniverse (g : RepositoryGraph) : Finset String :=
  (g.edges.image fun e => e.2.2) ∪ (g.reverse_edges.image fun e => e.2)

theorem fwdAdj_mem_universe {g : RepositoryGraph} {a n : String}
    (h : n ∈ g.fwdAdj a) : n ∈ g.nodeUniverse := by
  rcases mem_fwdAdj.mp h with ⟨m, hm⟩
  exact Finset.mem_union_left _ (Finset.mem_image.mpr ⟨(a, m, n), hm, rfl⟩)

theorem bwdAdj_mem_universe {g : RepositoryGraph} {a n : String}
    (h : n ∈ g.bwdAdj a) : n ∈ g.nodeUniverse := by
  have := mem_bwdAdj.mp h
  exact Finset.mem_union_right _ (Finset.mem_image.mpr ⟨(a, n), this, rfl⟩)

theorem undirAdj_mem_universe {g : RepositoryGraph} {a n : String}
    (h : n ∈ g.undirAdj a) : n ∈ g.nodeUniverse := by
  rcases List.mem_append.mp h with h1 | h1
  · exact fwdAdj_mem_universe h1
  · exact bwdAdj_mem_universe h1

/-- Entry point of each scan: `worklist = list(start_at_actors)`,
`visited_actors = set(start_at_actors)`, no actor popped yet.  Returns
the pair `(visited_actors, popped actors)`. -/
def scanFrom (adj : String → List String) (U : Finset String)
    (hadj : ∀ a, ∀ n ∈ adj a, n ∈ U) (start : Finset String)
    (hstart : ∀ x ∈ start, x ∈ U) : Finset String × Finset String :=
  scanLoop adj U hadj (sortedList start) start hstart ∅

theorem scanFrom_spec (adj : String → List String) (U : Finset String)
    (hadj : ∀ a, ∀ n ∈ adj a, n ∈ U) (start : Finset String)
    (hstart : ∀ x ∈ start, x ∈ U) :
    (∀ x ∈ start, x ∈ (scanFrom adj U hadj start hstart).1) ∧
    (∀ x ∈ (scanFrom adj U hadj start hstart).1, Reaches adj start x) ∧
    (∀ a ∈ (scanFrom adj U hadj start hstart).1, ∀ n ∈ adj a,
        n ∈ (scanFrom adj U hadj start hstart).1) ∧
    (∀ x ∈ (scanFrom adj U hadj start hstart).1,
        x ∈ (scanFrom adj U hadj start hstart).2) := by
  refine scanLoop_spec adj U hadj start _ start hstart ∅ ?_ ?_ ?_ ?_
  · intro x hx; exact mem_sortedList.mp hx
  · intro a ha; exact Or.inl (mem_sortedList.mpr ha)
  · intro x hx; exact Or.inr (mem_sortedList.mpr hx)
  · intro x hx; exact Reaches.base hx

theorem mem_scanFrom {adj : String → List String} {U : Finset String}
    {hadj : ∀ a, ∀ n ∈ adj a, n ∈ U} {start : Finset String}
    {hstart : ∀ x ∈ start, x ∈ U} {x : String} :
    x ∈ (scanFrom adj U hadj start hstart).1 ↔ Reaches adj start x := by
  obtain ⟨h1, h2, h3, _⟩ := scanFrom_spec adj U hadj start hstart
  constructor
  · exact h2 x
  · intro h
    exact h.subset_closed h1 h3

theorem scanFrom_popped_of_mem {adj : String → List String} {U : Finset String}
    {hadj : ∀ a, ∀ n ∈ adj a, n ∈ U} {start : Finset String}
    {hstart : ∀ x ∈ start, x ∈ U} {x : String}
    (h : x ∈ (scanFrom adj U hadj start hstart).1) :
    x ∈ (scanFrom adj U hadj start hstart).2 :=
  (scanFrom_spec adj U hadj start hstart).2.2.2 x h

/-- `RepositoryGraph._forward_scan`: follow forward edges only.  First
component: the visited set it returns; second component: the actors that
were popped (each pop reads `self.edges[actor]`, creating that outer
key). -/
def RepositoryGraph.forward_scan (g : RepositoryGraph)
    (start_at_actors : Finset String) : Finset String × Finset String :=
  scanFrom g.fwdAdj (g.nodeUniverse ∪ start_at_actors)
    (fun _ n hn => Finset.mem_union_left _ (fwdAdj_mem_universe hn))
    start_at_actors (fun x hx => Finset.mem_union_right _ hx)

/-- `RepositoryGraph._backward_scan`: follow reverse edges only. -/
def RepositoryGraph.backward_scan (g : RepositoryGraph)
    (start_at_actors : Finset String) : Finset String × Finset String :=
  scanFrom g.bwdAdj (g.nodeUniverse ∪ start_at_actors)
    (fun _ n hn => Finset.mem_union_left _ (bwdAdj_mem_universe hn))
    start_at_actors (fun x hx => Finset.mem_union_right _ hx)

/-- `RepositoryGraph._dfs_graph_scan`: ignore edge directions. -/
def RepositoryGraph.dfs_graph_scan (g : RepositoryGraph)
    (start_at_actors : Finset String) : Finset String × Finset String :=
  scanFrom g.undirAdj (g.nodeUniverse ∪ start_at_actors)
    (fun _ n hn => Finset.mem_union_left _ (undirAdj_mem_universe hn))
    start_at_actors (fun x hx => Finset.mem_union_right _ hx)

theorem mem_forward_scan {g : RepositoryGraph} {start : Finset String}
    {x : String} :
    x ∈ (g.forward_scan start).1 ↔ Reaches g.fwdAdj start x :=
  mem_scanFrom

theorem mem_backward_scan {g : RepositoryGraph} {start : Finset String}
    {x : String} :
    x ∈ (g.backward_scan start).1 ↔ Reaches g.bwdAdj start x :=
  mem_scanFrom

theorem mem_dfs_graph_scan {g : RepositoryGraph} {start : Finset String}
    {x : String} :
    x ∈ (g.dfs_graph_scan start).1 ↔ Reaches g.undirAdj start x :=
  mem_scanFrom

/-- Subgraph materialization (the loop at the end of
`make_subgraph_related_to`): keep exactly the edge entries whose two
endpoints were visited, copying each label set, rebuilding the reverse
index (and the dictionary keys) from the copied entries, and install the
visited set as the node set. -/
def RepositoryGraph.make_subgraph_core (g : RepositoryGraph)
    (seen_actors : Finset String) : RepositoryGraph :=
  { edges := g.edges.filter fun e => e.1 ∈ seen_actors ∧ e.2.2 ∈ seen_actors
    edgeKeys := (g.edges.filter fun e => e.1 ∈ seen_actors ∧ e.2.2 ∈ seen_actors).image
      fun e => e.1
    reverse_edges := (g.edges.filter fun e => e.1 ∈ seen_actors ∧ e.2.2 ∈ seen_actors).image
      fun e => (e.2.2, e.1)
    revKeys := (g.edges.filter fun e => e.1 ∈ seen_actors ∧ e.2.2 ∈ seen_actors).image
      fun e => e.2.2
    actors := seen_actors }

/-- `RepositoryGraph.make_subgraph_related_to(leapp_entities, tight)`.
Returns the pair `(source graph after the call, extracted subgraph)`: the
scans' defaultdict lookups add one key per popped actor to the source
graph's `edges` (forward and undirected scans) and `reverse_edges`
(backward and undirected scans) dictionaries, which is the only effect
the call has on the source graph. -/
def RepositoryGraph.make_subgraph_related_to (g : RepositoryGraph)
    (leapp_entities : List String) (tight : Bool) :
    RepositoryGraph × RepositoryGraph :=
  let fb := g.collect_actors_for_entities leapp_entities
  if tight then
    let f := g.forward_scan fb.1
    let b := g.backward_scan fb.2
    ({ g with edgeKeys := g.edgeKeys ∪ f.2, revKeys := g.revKeys ∪ b.2 },
      g.make_subgraph_core (f.1 ∪ b.1))
  else
    let d := g.dfs_graph_scan (fb.1 ∪ fb.2)
    ({ g with edgeKeys := g.edgeKeys ∪ d.2, revKeys := g.revKeys ∪ d.2 },
      g.make_subgraph_core d.1)

/-- The producer table of `construct_graph_from_actors`, read at key `m`:
the set of `class_name`s of descriptors that produce `m` (accumulated
over the whole descriptor list, duplicates of a name landing in the same
set). -/
def producersOf (actor_definitions : List ActorDef) (m : String) : Finset String :=
  actor_definitions.foldl
    (fun s d => if m ∈ d.produces then insert d.class_name s else s) ∅

/-- The consumer table, read at key `m`. -/
def consumersOf (actor_definitions : List ActorDef) (m : String) : Finset String :=
  actor_definitions.foldl
    (fun s d => if m ∈ d.consumes then insert d.class_name s else s) ∅

/-- The key set of the producer table: message types produced by at least
one descriptor. -/
def producedMsgs (actor_definitions : List ActorDef) : Finset String :=
  actor_definitions.foldl (fun s d => s ∪ d.produces.toFinset) ∅

/-- The key set of the consumer table. -/
def consumedMsgs (actor_definitions : List ActorDef) : Finset String :=
  actor_definitions.foldl (fun s d => s ∪ d.consumes.toFinset) ∅

/-- `construct_graph_from_actors`: build both tables, intersect their key
sets into the spoken messages, and for each spoken message add one edge
per `(consumer, producer)` pair of the Cartesian product, via
`add_edge(producer, msg_type, consumer)`. -/
def construct_graph_from_actors (actor_definitions : List ActorDef) :
    RepositoryGraph :=
  let spoken := producedMsgs actor_definitions ∩ consumedMsgs actor_definitions
  (sortedList spoken).foldl
    (fun graph msg_type =>
      ((sortedList (consumersOf actor_definitions msg_type)).flatMap
          fun consumer =>
            (sortedList (producersOf actor_definitions msg_type)).map
              fun producer => (consumer, producer)).foldl
        (fun graph cp => graph.add_edge cp.2 msg_type cp.1) graph)
    RepositoryGraph.emptyGraph

/-- Folding `add_edge` over an explicit list of
`(source, message, target)` triples; the loops of
`construct_graph_from_actors` are an instance. -/
def addTriples (g : RepositoryGraph) (l : List (String × String × String)) :
    RepositoryGraph :=
  l.foldl (fun g t => g.add_edge t.1 t.2.1 t.2.2) g

theorem mem_addTriples_edges {g : RepositoryGraph}
    {l : List (String × String × String)} {tr : String × String × String} :
    tr ∈ (addTriples g l).edges ↔ tr ∈ g.edges ∨ tr ∈ l := by
  induction l generalizing g with
  | nil => simp [addTriples]
  | cons t l ih =>
      simp only [addTriples, List.foldl_cons] at ih ⊢
      rw [ih]
      simp only [RepositoryGraph.add_edge, Finset.mem_insert, List.mem_cons]
      tauto

theorem mem_addTriples_actors {g : RepositoryGraph}
    {l : List (String × String × String)} {a : String} :
    a ∈ (addTriples g l).actors ↔
      a ∈ g.actors ∨ ∃ t ∈ l, a = t.1 ∨ a = t.2.2 := by
  induction l generalizing g with
  | nil => simp [addTriples]
  | cons t l ih =>
      simp only [addTriples, List.foldl_cons] at ih ⊢
      rw [ih]
      simp only [RepositoryGraph.add_edge, Finset.mem_insert,
        List.exists_mem_cons_iff]
      generalize (∃ x ∈ l, a = x.1 ∨ a = x.2.2) = P
      tauto

theorem mem_addTriples_reverse {g : RepositoryGraph}
    {l : List (String × String × String)} {pr : String × String} :
    pr ∈ (addTriples g l).reverse_edges ↔
      pr ∈ g.reverse_edges ∨ ∃ t ∈ l, pr = (t.2.2, t.1) := by
  induction l generalizing g with
  | nil => simp [addTriples]
  | cons t l ih =>
      simp only [addTriples, List.foldl_cons] at ih ⊢
      rw [ih]
      simp only [RepositoryGraph.add_edge, Finset.mem_insert,
        List.exists_mem_cons_iff]
      generalize (∃ x ∈ l, pr = (x.2.2, x.1)) = P
      tauto

theorem addTriples_append {g : RepositoryGraph}
    {l1 l2 : List (String × String × String)} :
    addTriples g (l1 ++ l2) = addTriples (addTriples g l1) l2 := by
  simp [addTriples, List.foldl_append]

/-- The triple list that `construct_graph_from_actors` feeds to
`add_edge`, flattened. -/
def constructTriples (actor_definitions : List ActorDef) :
    List (String × String × String) :=
  (sortedList (producedMsgs actor_definitions ∩ consumedMsgs actor_definitions)).flatMap fun msg_type =>
    (sortedList (consumersOf actor_definitions msg_type)).flatMap
      fun consumer =>
        (sortedList (producersOf actor_definitions msg_type)).map
          fun producer => (producer, msg_type, consumer)

theorem pairFold_eq_addTriples (m : String) (cs ps : List String)
    (g0 : RepositoryGraph) :
    ((cs.flatMap fun consumer => ps.map fun producer => (consumer, producer)).foldl
        (fun graph cp => graph.add_edge cp.2 m cp.1) g0) =
      addTriples g0 (cs.flatMap fun consumer =>
        ps.map fun producer => (producer, m, consumer)) := by
  induction cs generalizing g0 with
  | nil => rfl
  | cons c cs ih =>
      simp only [List.flatMap_cons, List.foldl_append, addTriples_append, ih]
      congr 1
      simp only [addTriples, List.foldl_map]

theorem construct_eq_addTriples (actor_definitions : List ActorDef) :
    construct_graph_from_actors actor_definitions =
      addTriples RepositoryGraph.emptyGraph (constructTriples actor_definitions) := by
  unfold construct_graph_from_actors constructTriples
  dsimp only
  generalize RepositoryGraph.emptyGraph = g0
  generalize sortedList (producedMsgs actor_definitions ∩ consumedMsgs actor_definitions) = msgs
  induction msgs generalizing g0 with
  | nil => rfl
  | cons m ms ih =>
      simp only [List.flatMap_cons, List.foldl_cons, addTriples_append]
      rw [pairFold_eq_addTriples, ih]

theorem mem_producersOf {actor_definitions : List ActorDef} {m a : String} :
    a ∈ producersOf actor_definitions m ↔
      ∃ d ∈ actor_definitions, d.class_name = a ∧ m ∈ d.produces := by
  have key : ∀ (s : Finset String),
      a ∈ actor_definitions.foldl
          (fun s d => if m ∈ d.produces then insert d.class_name s else s) s ↔
        a ∈ s ∨ ∃ d ∈ actor_definitions, d.class_name = a ∧ m ∈ d.produces := by
    induction actor_definitions with
    | nil => simp
    | cons d ds ih =>
        intro s
        simp only [List.foldl_cons, ih, List.exists_mem_cons_iff]
        by_cases h : m ∈ d.produces
        · simp only [if_pos h, Finset.mem_insert, eq_comm]
          tauto
        · simp only [if_neg h]
          tauto
  simpa [producersOf] using key ∅

theorem mem_consumersOf {actor_definitions : List ActorDef} {m a : String} :
    a ∈ consumersOf actor_definitions m ↔
      ∃ d ∈ actor_definitions, d.class_name = a ∧ m ∈ d.consumes := by
  have key : ∀ (s : Finset String),
      a ∈ actor_definitions.foldl
          (fun s d => if m ∈ d.consumes then insert d.class_name s else s) s ↔
        a ∈ s ∨ ∃ d ∈ actor_definitions, d.class_name = a ∧ m ∈ d.consumes := by
    induction actor_definitions with
    | nil => simp
    | cons d ds ih =>
        intro s
        simp only [List.foldl_cons, ih, List.exists_mem_cons_iff]
        by_cases h : m ∈ d.consumes
        · simp only [if_pos h, Finset.mem_insert, eq_comm]
          tauto
        · simp only [if_neg h]
          tauto
  simpa [consumersOf] using key ∅

theorem mem_producedMsgs {actor_definitions : List ActorDef} {m : String} :
    m ∈ producedMsgs actor_definitions ↔
      ∃ d ∈ actor_definitions, m ∈ d.produces := by
  have key : ∀ (s : Finset String),
      m ∈ actor_definitions.foldl (fun s d => s ∪ d.produces.toFinset) s ↔
        m ∈ s ∨ ∃ d ∈ actor_definitions, m ∈ d.produces := by
    induction actor_definitions with
    | nil => simp
    | cons d ds ih =>
        intro s
        simp only [List.foldl_cons, ih, List.exists_mem_cons_iff,
          Finset.mem_union, List.mem_toFinset]
        tauto
  simpa [producedMsgs] using key ∅

theorem mem_consumedMsgs {actor_definitions : List ActorDef} {m : String} :
    m ∈ consumedMsgs actor_definitions ↔
      ∃ d ∈ actor_definitions, m ∈ d.consumes := by
  have key : ∀ (s : Finset String),
      m ∈ actor_definitions.foldl (fun s d => s ∪ d.consumes.toFinset) s ↔
        m ∈ s ∨ ∃ d ∈ actor_definitions, m ∈ d.consumes := by
    induction actor_definitions with
    | nil => simp
    | cons d ds ih =>
        intro s
        simp only [List.foldl_cons, ih, List.exists_mem_cons_iff,
          Finset.mem_union, List.mem_toFinset]
        tauto
  simpa [consumedMsgs] using key ∅

theorem mem_constructTriples {actor_definitions : List ActorDef}
    {tr : String × String × String} :
    tr ∈ constructTriples actor_definitions ↔
      tr.2.1 ∈ producedMsgs actor_definitions ∧
      tr.2.1 ∈ consumedMsgs actor_definitions ∧
      tr.1 ∈ producersOf actor_definitions tr.2.1 ∧
      tr.2.2 ∈ consumersOf actor_definitions tr.2.1 := by
  obtain ⟨p, m, c⟩ := tr
  simp only [constructTriples, List.mem_flatMap, List.mem_map, mem_sortedList,
    Finset.mem_inter]
  constructor
  · rintro ⟨m2, ⟨h1, h2⟩, c2, hc, p2, hp, heq⟩
    simp only [Prod.mk.injEq] at heq
    obtain ⟨rfl, rfl, rfl⟩ := heq
    exact ⟨h1, h2, hp, hc⟩
  · rintro ⟨h1, h2, hp, hc⟩
    exact ⟨m, ⟨h1, h2⟩, c, hc, p, hp, rfl⟩

/-- Edge characterization of the builder: a triple is in the built graph
exactly when some descriptor named `p` produces `m` and some descriptor
named `c` consumes `m`. -/
theorem mem_construct_edges {actor_definitions : List ActorDef}
    {p m c : String} :
    (p, m, c) ∈ (construct_graph_from_actors actor_definitions).edges ↔
      (∃ d ∈ actor_definitions, d.class_name = p ∧ m ∈ d.produces) ∧
      (∃ d ∈ actor_definitions, d.class_name = c ∧ m ∈ d.consumes) := by
  rw [construct_eq_addTriples, mem_addTriples_edges]
  simp only [RepositoryGraph.emptyGraph, Finset.not_mem_empty, false_or]
  rw [mem_constructTriples]
  simp only [mem_producersOf, mem_consumersOf, mem_producedMsgs, mem_consumedMsgs]
  constructor
  · rintro ⟨_, _, hp, hc⟩
    exact ⟨hp, hc⟩
  · rintro ⟨⟨dp, hdp, hp1, hp2⟩, ⟨dc, hdc, hc1, hc2⟩⟩
    exact ⟨⟨dp, hdp, hp2⟩, ⟨dc, hdc, hc2⟩, ⟨dp, hdp, hp1, hp2⟩, ⟨dc, hdc, hc1, hc2⟩⟩

theorem mem_construct_actors {actor_definitions : List ActorDef} {a : String} :
    a ∈ (construct_graph_from_actors actor_definitions).actors ↔
      ∃ tr ∈ constructTriples actor_definitions, a = tr.1 ∨ a = tr.2.2 := by
  rw [construct_eq_addTriples, mem_addTriples_actors]
  simp [RepositoryGraph.emptyGraph]

theorem mem_construct_reverse {actor_definitions : List ActorDef}
    {pr : String × String} :
    pr ∈ (construct_graph_from_actors actor_definitions).reverse_edges ↔
      ∃ tr ∈ constructTriples actor_definitions, pr = (tr.2.2, tr.1) := by
  rw [construct_eq_addTriples, mem_addTriples_reverse]
  simp [RepositoryGraph.emptyGraph]

/-- Graph invariant: the node set is exactly the set of components that
appear as the source or the target of some edge. -/
def nodesMatchEdges (g : RepositoryGraph) : Prop :=
  g.actors = (g.edges.image fun e => e.1) ∪ (g.edges.image fun e => e.2.2)

/-- Graph invariant: the reverse index holds exactly the
`(target, source)` pairs of the forward edges. -/
def reverseConsistent (g : RepositoryGraph) : Prop :=
  g.reverse_edges = g.edges.image fun e => (e.2.2, e.1)

instance (g : RepositoryGraph) : Decidable (nodesMatchEdges g) := by
  unfold nodesMatchEdges; infer_instance

instance (g : RepositoryGraph) : Decidable (reverseConsistent g) := by
  unfold reverseConsistent; infer_instance

/-- Pointwise reading of `nodesMatchEdges`. -/
theorem nodesMatchEdges_iff {g : RepositoryGraph} :
    nodesMatchEdges g ↔
      ∀ a, (a ∈ g.actors ↔ ∃ e ∈ g.edges, e.1 = a ∨ e.2.2 = a) := by
  unfold nodesMatchEdges
  rw [Finset.ext_iff]
  apply forall_congr'
  intro a
  simp only [Finset.mem_union, Finset.mem_image]
  constructor
  · intro h
    rw [h]
    constructor
    · rintro (⟨e, he, rfl⟩ | ⟨e, he, rfl⟩)
      · exact ⟨e, he, Or.inl rfl⟩
      · exact ⟨e, he, Or.inr rfl⟩
    · rintro ⟨e, he, (rfl | rfl)⟩
      · exact Or.inl ⟨e, he, rfl⟩
      · exact Or.inr ⟨e, he, rfl⟩
  · intro h
    rw [h]
    constructor
    · rintro ⟨e, he, (rfl | rfl)⟩
      · exact Or.inl ⟨e, he, rfl⟩
      · exact Or.inr ⟨e, he, rfl⟩
    · rintro (⟨e, he, rfl⟩ | ⟨e, he, rfl⟩)
      · exact ⟨e, he, Or.inl rfl⟩
      · exact ⟨e, he, Or.inr rfl⟩

/-- Pointwise reading of `reverseConsistent`: an entry `(t, s)` is in the
reverse index exactly when a forward edge from `s` to `t` with some label
exists. -/
theorem reverseConsistent_iff {g : RepositoryGraph} :
    reverseConsistent g ↔
      ∀ t s, ((t, s) ∈ g.reverse_edges ↔ ∃ m, (s, m, t) ∈ g.edges) := by
  unfold reverseConsistent
  rw [Finset.ext_iff]
  constructor
  · intro h t s
    rw [h (t, s)]
    simp only [Finset.mem_image, Prod.mk.injEq]
    constructor
    · rintro ⟨e, he, rfl, rfl⟩
      exact ⟨e.2.1, he⟩
    · rintro ⟨m, hm⟩
      exact ⟨(s, m, t), hm, rfl, rfl⟩
  · intro h pr
    rw [h pr.1 pr.2]
    simp only [Finset.mem_image]
    constructor
    · rintro ⟨m, hm⟩
      exact ⟨(pr.2, m, pr.1), hm, rfl⟩
    · rintro ⟨e, he, rfl⟩
      exact ⟨e.2.1, he⟩

theorem mem_filter_image_target {g : RepositoryGraph} {e a : String} :
    (a ∈ (g.edges.filter fun tr => tr.2.1 = e).image fun tr => tr.2.2) ↔
      ∃ s, (s, e, a) ∈ g.edges := by
  simp only [Finset.mem_image, Finset.mem_filter]
  constructor
  · rintro ⟨tr, ⟨htr, rfl⟩, rfl⟩
    exact ⟨tr.1, htr⟩
  · rintro ⟨s, h⟩
    exact ⟨(s, e, a), ⟨h, rfl⟩, rfl⟩

theorem mem_filter_image_source {g : RepositoryGraph} {e a : String} :
    (a ∈ (g.edges.filter fun tr => tr.2.1 = e).image fun tr => tr.1) ↔
      ∃ t, (a, e, t) ∈ g.edges := by
  simp only [Finset.mem_image, Finset.mem_filter]
  constructor
  · rintro ⟨tr, ⟨htr, rfl⟩, rfl⟩
    exact ⟨tr.2.2, htr⟩
  · rintro ⟨t, h⟩
    exact ⟨(a, e, t), ⟨h, rfl⟩, rfl⟩

theorem collect_foldl_spec (g : RepositoryGraph) (ents : List String) :
    ∀ (fb : Finset String × Finset String) (a : String),
      (a ∈ (ents.foldl (collectStep g) fb).1 ↔
        a ∈ fb.1 ∨ ∃ e ∈ ents,
          (e ∈ g.actors ∧ a = e) ∨ (e ∉ g.actors ∧ ∃ s, (s, e, a) ∈ g.edges)) ∧
      (a ∈ (ents.foldl (collectStep g) fb).2 ↔
        a ∈ fb.2 ∨ ∃ e ∈ ents,
          (e ∈ g.actors ∧ a = e) ∨ (e ∉ g.actors ∧ ∃ t, (a, e, t) ∈ g.edges)) := by
  induction ents with
  | nil => intro fb a; simp
  | cons e0 es ih =>
      intro fb a
      simp only [List.foldl_cons, List.exists_mem_cons_iff]
      constructor
      · rw [(ih (collectStep g fb e0) a).1]
        unfold collectStep
        by_cases h : e0 ∈ g.actors
        · simp only [if_pos h, Finset.mem_insert]
          constructor
          · rintro ((rfl | hfb) | hrest)
            · exact Or.inr (Or.inl (Or.inl ⟨h, rfl⟩))
            · exact Or.inl hfb
            · exact Or.inr (Or.inr hrest)
          · rintro (hfb | ((⟨_, rfl⟩ | ⟨hne, _⟩) | hrest))
            · exact Or.inl (Or.inr hfb)
            · exact Or.inl (Or.inl rfl)
            · exact absurd h hne
            · exact Or.inr hrest
        · simp only [if_neg h, Finset.mem_union, mem_filter_image_target]
          constructor
          · rintro ((hfb | him) | hrest)
            · exact Or.inl hfb
            · exact Or.inr (Or.inl (Or.inr ⟨h, him⟩))
            · exact Or.inr (Or.inr hrest)
          · rintro (hfb | ((⟨he, _⟩ | ⟨_, him⟩) | hrest))
            · exact Or.inl (Or.inl hfb)
            · exact absurd he h
            · exact Or.inl (Or.inr him)
            · exact Or.inr hrest
      · rw [(ih (collectStep g fb e0) a).2]
        unfold collectStep
        by_cases h : e0 ∈ g.actors
        · simp only [if_pos h, Finset.mem_insert]
          constructor
          · rintro ((rfl | hfb) | hrest)
            · exact Or.inr (Or.inl (Or.inl ⟨h, rfl⟩))
            · exact Or.inl hfb
            · exact Or.inr (Or.inr hrest)
          · rintro (hfb | ((⟨_, rfl⟩ | ⟨hne, _⟩) | hrest))
            · exact Or.inl (Or.inr hfb)
            · exact Or.inl (Or.inl rfl)
            · exact absurd h hne
            · exact Or.inr hrest
        · simp only [if_neg h, Finset.mem_union, mem_filter_image_source]
          constructor
          · rintro ((hfb | him) | hrest)
            · exact Or.inl hfb
            · exact Or.inr (Or.inl (Or.inr ⟨h, him⟩))
            · exact Or.inr (Or.inr hrest)
          · rintro (hfb | ((⟨he, _⟩ | ⟨_, him⟩) | hrest))
            · exact Or.inl (Or.inl hfb)
            · exact absurd he h
            · exact Or.inl (Or.inr him)
            · exact Or.inr hrest

/-- Seed classification: membership in the forward-seed set. -/
theorem mem_collect_forward {g : RepositoryGraph} {ents : List String}
    {a : String} :
    a ∈ (g.collect_actors_for_entities ents).1 ↔
      ∃ e ∈ ents, (e ∈ g.actors ∧ a = e) ∨
        (e ∉ g.actors ∧ ∃ s, (s, e, a) ∈ g.edges) := by
  have := (collect_foldl_spec g ents (∅, ∅) a).1
  simpa [RepositoryGraph.collect_actors_for_entities] using this

/-- Seed classification: membership in the backward-seed set. -/
theorem mem_collect_backward {g : RepositoryGraph} {ents : List String}
    {a : String} :
    a ∈ (g.collect_actors_for_entities ents).2 ↔
      ∃ e ∈ ents, (e ∈ g.actors ∧ a = e) ∨
        (e ∉ g.actors ∧ ∃ t, (a, e, t) ∈ g.edges) := by
  have := (collect_foldl_spec g ents (∅, ∅) a).2
  simpa [RepositoryGraph.collect_actors_for_entities] using this

theorem mem_subgraph_core_edges {g : RepositoryGraph} {S : Finset String}
    {tr : String × String × String} :
    tr ∈ (g.make_subgraph_core S).edges ↔
      tr ∈ g.edges ∧ tr.1 ∈ S ∧ tr.2.2 ∈ S := by
  simp [RepositoryGraph.make_subgraph_core, Finset.mem_filter, and_assoc]

theorem subgraph_core_actors (g : RepositoryGraph) (S : Finset String) :
    (g.make_subgraph_core S).actors = S := rfl

theorem make_subgraph_related_to_true (g : RepositoryGraph)
    (ents : List String) :
    g.make_subgraph_related_to ents true =
      ({ g with
          edgeKeys := g.edgeKeys ∪
            (g.forward_scan (g.collect_actors_for_entities ents).1).2,
          revKeys := g.revKeys ∪
            (g.backward_scan (g.collect_actors_for_entities ents).2).2 },
        g.make_subgraph_core
          ((g.forward_scan (g.collect_actors_for_entities ents).1).1 ∪
            (g.backward_scan (g.collect_actors_for_entities ents).2).1)) := rfl

theorem make_subgraph_related_to_false (g : RepositoryGraph)
    (ents : List String) :
    g.make_subgraph_related_to ents false =
      ({ g with
          edgeKeys := g.edgeKeys ∪
            (g.dfs_graph_scan ((g.collect_actors_for_entities ents).1 ∪
              (g.collect_actors_for_entities ents).2)).2,
          revKeys := g.revKeys ∪
            (g.dfs_graph_scan ((g.collect_actors_for_entities ents).1 ∪
              (g.collect_actors_for_entities ents).2)).2 },
        g.make_subgraph_core
          (g.dfs_graph_scan ((g.collect_actors_for_entities ents).1 ∪
            (g.collect_actors_for_entities ents).2)).1) := rfl

theorem subgraph_core_labelSet (g : RepositoryGraph) (S : Finset String)
    (p c : String) :
    (g.make_subgraph_core S).labelSet p c =
      if p ∈ S ∧ c ∈ S then g.labelSet p c else ∅ := by
  by_cases h : p ∈ S ∧ c ∈ S
  · rw [if_pos h]
    ext m
    simp only [RepositoryGraph.labelSet, Finset.mem_image, Finset.mem_filter,
      mem_subgraph_core_edges]
    constructor
    · rintro ⟨e, ⟨⟨he, _, _⟩, hpc⟩, hm⟩
      exact ⟨e, ⟨he, hpc⟩, hm⟩
    · rintro ⟨e, ⟨he, hp, hc⟩, hm⟩
      exact ⟨e, ⟨⟨he, hp ▸ h.1, hc ▸ h.2⟩, hp, hc⟩, hm⟩
  · rw [if_neg h]
    ext m
    simp only [RepositoryGraph.labelSet, Finset.mem_image, Finset.mem_filter,
      mem_subgraph_core_edges, Finset.not_mem_empty, iff_false]
    rintro ⟨e, ⟨⟨_, hS1, hS2⟩, hp, hc⟩, _⟩
    exact h ⟨hp ▸ hS1, hc ▸ hS2⟩

theorem reaches_empty_false {adj : String → List String} {x : String}
    (h : Reaches adj ∅ x) : False := by
  induction h with
  | base hx => exact absurd hx (Finset.not_mem_empty _)
  | step _ _ ih => exact ih

theorem forward_scan_empty (g : RepositoryGraph) :
    (g.forward_scan ∅).1 = ∅ := by
  ext x
  simp only [Finset.not_mem_empty, iff_false]
  intro hx
  exact reaches_empty_false (mem_forward_scan.mp hx)

theorem backward_scan_empty (g : RepositoryGraph) :
    (g.backward_scan ∅).1 = ∅ := by
  ext x
  simp only [Finset.not_mem_empty, iff_false]
  intro hx
  exact reaches_empty_false (mem_backward_scan.mp hx)

theorem dfs_graph_scan_empty (g : RepositoryGraph) :
    (g.dfs_graph_scan ∅).1 = ∅ := by
  ext x
  simp only [Finset.not_mem_empty, iff_false]
  intro hx
  exact reaches_empty_false (mem_dfs_graph_scan.mp hx)

theorem subgraph_core_empty (g : RepositoryGraph) :
    g.make_subgraph_core ∅ = RepositoryGraph.emptyGraph := by
  have h : (g.edges.filter fun e =>
      e.1 ∈ (∅ : Finset String) ∧ e.2.2 ∈ (∅ : Finset String)) = ∅ := by
    ext e
    simp
  unfold RepositoryGraph.make_subgraph_core RepositoryGraph.emptyGraph
  rw [h]
  simp

/-- **C1.** For a descriptor list with unique names, the built graph has
the edge `(p, m, c)` exactly when some descriptor named `p` produces `m`
and some descriptor named `c` consumes `m` (equivalently, `m` is spoken
and `(p, c)` ranges over producers times consumers). -/
theorem construct_graph_edge_iff (actor_definitions : List ActorDef)
    (hnodup : (actor_definitions.map ActorDef.class_name).Nodup)
    (p m c : String) :
    (p, m, c) ∈ (construct_graph_from_actors actor_definitions).edges ↔
      (∃ d ∈ actor_definitions, d.class_name = p ∧ m ∈ d.produces) ∧
      (∃ d ∈ actor_definitions, d.class_name = c ∧ m ∈ d.consumes) :=
  mem_construct_edges

/-- Witness for C1 at a concrete two-descriptor repository. -/
theorem construct_graph_edge_iff_witness :
    (([⟨"A", ["X"], []⟩, ⟨"B", [], ["X"]⟩] : List ActorDef).map
        ActorDef.class_name).Nodup ∧
    (("A", "X", "B") ∈
        (construct_graph_from_actors
          [⟨"A", ["X"], []⟩, ⟨"B", [], ["X"]⟩]).edges ↔
      (∃ d ∈ ([⟨"A", ["X"], []⟩, ⟨"B", [], ["X"]⟩] : List ActorDef),
          d.class_name = "A" ∧ "X" ∈ d.produces) ∧
      (∃ d ∈ ([⟨"A", ["X"], []⟩, ⟨"B", [], ["X"]⟩] : List ActorDef),
          d.class_name = "B" ∧ "X" ∈ d.consumes)) :=
  ⟨by decide,
   construct_graph_edge_iff [⟨"A", ["X"], []⟩, ⟨"B", [], ["X"]⟩] (by decide)
     "A" "X" "B"⟩

/-- **C2.** Subgraph materialization from a visited set `S`: an edge
survives exactly when it is an edge of the source graph with both
endpoints in `S`, label sets are copied verbatim (none dropped), and the
node set of the result is exactly `S`. -/
theorem subgraph_materialization (g : RepositoryGraph) (S : Finset String)
    (p m c : String) :
    ((p, m, c) ∈ (g.make_subgraph_core S).edges ↔
      (p, m, c) ∈ g.edges ∧ p ∈ S ∧ c ∈ S) ∧
    ((g.make_subgraph_core S).labelSet p c =
      if p ∈ S ∧ c ∈ S then g.labelSet p c else ∅) ∧
    (g.make_subgraph_core S).actors = S :=
  ⟨mem_subgraph_core_edges, subgraph_core_labelSet g S p c,
   subgraph_core_actors g S⟩

/-- **C4.** Seed classification of `_collect_actors_for_entities`: a
component-name entity seeds both sets with itself; any other entity is
read as a message type and seeds the backward set with the sources and
the forward set with the targets of the edges labelled by it; entities
matching neither contribute nothing. -/
theorem collect_seed_classification (g : RepositoryGraph)
    (ents : List String) (a : String) :
    (a ∈ (g.collect_actors_for_entities ents).1 ↔
      ∃ e ∈ ents, (e ∈ g.actors ∧ a = e) ∨
        (e ∉ g.actors ∧ ∃ s, (s, e, a) ∈ g.edges)) ∧
    (a ∈ (g.collect_actors_for_entities ents).2 ↔
      ∃ e ∈ ents, (e ∈ g.actors ∧ a = e) ∨
        (e ∉ g.actors ∧ ∃ t, (a, e, t) ∈ g.edges)) :=
  ⟨mem_collect_forward, mem_collect_backward⟩

/-- A descriptor list with a duplicated name whose two entries carry
different produce/consume sets. -/
def dupDefs : List ActorDef :=
  [⟨"A", ["X"], []⟩, ⟨"A", [], ["X"]⟩]

/-- **C5, counterexample.** With two descriptors both named `A` — the
first produces `X`, the second consumes `X` — the builder keeps *both*
contributions: the graph contains the self-loop `(A, X, A)`, and differs
from the graph built from the last descriptor alone (which is empty).
Under the claimed last-write-wins semantics the first descriptor's
produced set would have been discarded. -/
theorem duplicate_name_counterexample :
    ("A", "X", "A") ∈ (construct_graph_from_actors dupDefs).edges ∧
    construct_graph_from_actors dupDefs ≠
      construct_graph_from_actors [⟨"A", [], ["X"]⟩] := by
  constructor
  · decide
  · decide

/-- **C5, amended.** Contributions of descriptors sharing a name
accumulate in the producer/consumer tables (set union over all
descriptors with that name); nothing is overwritten and no error is
raised. -/
theorem producer_consumer_tables_accumulate (actor_definitions : List ActorDef)
    (m a : String) :
    (a ∈ producersOf actor_definitions m ↔
      ∃ d ∈ actor_definitions, d.class_name = a ∧ m ∈ d.produces) ∧
    (a ∈ consumersOf actor_definitions m ↔
      ∃ d ∈ actor_definitions, d.class_name = a ∧ m ∈ d.consumes) :=
  ⟨mem_producersOf, mem_consumersOf⟩

/-- **C7.** The reverse index stays consistent with the forward edge map
through every public operation: in graphs built by the builder, after any
`add_edge` on a consistent graph, and in any extracted subgraph, the pair
`(t, s)` is a reverse entry exactly when a forward edge `(s, m, t)`
exists. -/
theorem reverse_index_consistency :
    (∀ actor_definitions : List ActorDef,
      reverseConsistent (construct_graph_from_actors actor_definitions)) ∧
    (∀ (g : RepositoryGraph) (s m t : String), reverseConsistent g →
      reverseConsistent (g.add_edge s m t)) ∧
    (∀ (g : RepositoryGraph) (ents : List String) (tight : Bool),
      reverseConsistent ((g.make_subgraph_related_to ents tight).2)) := by
  refine ⟨?_, ?_, ?_⟩
  · intro actor_definitions
    unfold reverseConsistent
    ext pr
    rw [mem_construct_reverse, Finset.mem_image]
    constructor
    · rintro ⟨tr, htr, rfl⟩
      refine ⟨tr, ?_, rfl⟩
      rw [construct_eq_addTriples, mem_addTriples_edges]
      exact Or.inr htr
    · rintro ⟨tr, htr, rfl⟩
      rw [construct_eq_addTriples, mem_addTriples_edges] at htr
      rcases htr with h | h
      · exact absurd h (Finset.not_mem_empty _)
      · exact ⟨tr, h, rfl⟩
  · intro g s m t h
    unfold reverseConsistent at h ⊢
    simp only [RepositoryGraph.add_edge, Finset.image_insert, h]
  · intro g ents tight
    cases tight <;> rfl

/-- **C9, counterexample.** Extraction does mutate the source graph: on
the one-edge graph `A -> B`, extracting the subgraph related to `A`
(loose mode) leaves behind a fresh empty entry in the `edges` defaultdict
for the scanned actor `B` (and likewise in `reverse_edges`), so the graph
object after the call differs from the one before. -/
theorem subgraph_extraction_mutates_keys :
    "B" ∈ (((RepositoryGraph.emptyGraph.add_edge "A" "X" "B").make_subgraph_related_to
        ["A"] false).1).edgeKeys ∧
    "B" ∉ (RepositoryGraph.emptyGraph.add_edge "A" "X" "B").edgeKeys ∧
    ((RepositoryGraph.emptyGraph.add_edge "A" "X" "B").make_subgraph_related_to
        ["A"] false).1 ≠ RepositoryGraph.emptyGraph.add_edge "A" "X" "B" := by
  have g0 := RepositoryGraph.emptyGraph.add_edge "A" "X" "B"
  have hseed : "A" ∈ ((RepositoryGraph.emptyGraph.add_edge "A" "X" "B").collect_actors_for_entities
      ["A"]).1 ∪ ((RepositoryGraph.emptyGraph.add_edge "A" "X" "B").collect_actors_for_entities
      ["A"]).2 := by
    apply Finset.mem_union_left
    exact mem_collect_forward.mpr
      ⟨"A", List.mem_cons_self _ _, Or.inl ⟨by decide, rfl⟩⟩
  have hreach : Reaches (RepositoryGraph.emptyGraph.add_edge "A" "X" "B").undirAdj
      (((RepositoryGraph.emptyGraph.add_edge "A" "X" "B").collect_actors_for_entities ["A"]).1 ∪
        ((RepositoryGraph.emptyGraph.add_edge "A" "X" "B").collect_actors_for_entities ["A"]).2)
      "B" := by
    refine Reaches.step (Reaches.base hseed) ?_
    exact mem_undirAdj.mpr (Or.inl ⟨"X", by decide⟩)
  have hB : "B" ∈ ((RepositoryGraph.emptyGraph.add_edge "A" "X" "B").dfs_graph_scan
      (((RepositoryGraph.emptyGraph.add_edge "A" "X" "B").collect_actors_for_entities ["A"]).1 ∪
        ((RepositoryGraph.emptyGraph.add_edge "A" "X" "B").collect_actors_for_entities ["A"]).2)).2 :=
    scanFrom_popped_of_mem (mem_dfs_graph_scan.mpr hreach)
  refine ⟨?_, ?_, ?_⟩
  · rw [make_subgraph_related_to_false]
    exact Finset.mem_union_right _ hB
  · decide
  · intro heq
    have h1 : "B" ∈ (((RepositoryGraph.emptyGraph.add_edge "A" "X" "B").make_subgraph_related_to
        ["A"] false).1).edgeKeys := by
      rw [make_subgraph_related_to_false]
      exact Finset.mem_union_right _ hB
    rw [heq] at h1
    exact absurd h1 (by decide)

/-- **C9, amended.** Extraction leaves the edge relation, the reverse
index contents and the node set of the source graph unchanged, in both
modes; its only effect on the source graph is that the key sets of the
two backing default dictionaries may grow (by the scanned actors), and
the extracted graph is a separate value. -/
theorem subgraph_extraction_frame (g : RepositoryGraph)
    (ents : List String) (tight : Bool) :
    ((g.make_subgraph_related_to ents tight).1).edges = g.edges ∧
    ((g.make_subgraph_related_to ents tight).1).reverse_edges = g.reverse_edges ∧
    ((g.make_subgraph_related_to ents tight).1).actors = g.actors ∧
    g.edgeKeys ⊆ ((g.make_subgraph_related_to ents tight).1).edgeKeys ∧
    g.revKeys ⊆ ((g.make_subgraph_related_to ents tight).1).revKeys := by
  cases tight <;>
    exact ⟨rfl, rfl, rfl, Finset.subset_union_left, Finset.subset_union_left⟩

/-- **C10.** If no entity names a node and no entity occurs as an edge
label, extraction returns the empty graph (empty node set, no edges), in
both modes. -/
theorem unmatched_entities_empty_subgraph (g : RepositoryGraph)
    (ents : List String) (tight : Bool)
    (h : ∀ e ∈ ents, e ∉ g.actors ∧ ∀ tr ∈ g.edges, tr.2.1 ≠ e) :
    (g.make_subgraph_related_to ents tight).2 = RepositoryGraph.emptyGraph := by
  have hF : (g.collect_actors_for_entities ents).1 = ∅ := by
    ext a
    simp only [Finset.not_mem_empty, iff_false]
    intro ha
    rcases mem_collect_forward.mp ha with ⟨e, he, hcase⟩
    rcases hcase with ⟨hact, _⟩ | ⟨_, s, hs⟩
    · exact (h e he).1 hact
    · exact (h e he).2 (s, e, a) hs rfl
  have hB : (g.collect_actors_for_entities ents).2 = ∅ := by
    ext a
    simp only [Finset.not_mem_empty, iff_false]
    intro ha
    rcases mem_collect_backward.mp ha with ⟨e, he, hcase⟩
    rcases hcase with ⟨hact, _⟩ | ⟨_, t, ht⟩
    · exact (h e he).1 hact
    · exact (h e he).2 (a, e, t) ht rfl
  cases tight
  · rw [make_subgraph_related_to_false]
    simp only [hF, hB, Finset.empty_union]
    rw [dfs_graph_scan_empty, subgraph_core_empty]
  · rw [make_subgraph_related_to_true]
    simp only [hF, hB]
    rw [forward_scan_empty, backward_scan_empty, Finset.empty_union,
      subgraph_core_empty]

/-- Witness for C10: a concrete graph and an entity matching nothing. -/
theorem unmatched_entities_empty_subgraph_witness :
    (∀ e ∈ ["Z"], e ∉ (RepositoryGraph.emptyGraph.add_edge "A" "X" "B").actors ∧
      ∀ tr ∈ (RepositoryGraph.emptyGraph.add_edge "A" "X" "B").edges, tr.2.1 ≠ e) ∧
    ((RepositoryGraph.emptyGraph.add_edge "A" "X" "B").make_subgraph_related_to
        ["Z"] true).2 = RepositoryGraph.emptyGraph :=
  ⟨by decide,
   unmatched_entities_empty_subgraph (RepositoryGraph.emptyGraph.add_edge "A" "X" "B")
     ["Z"] true (by decide)⟩

/-- **C3.** For any fixed entity list, the loose-mode subgraph's node set
contains the tight-mode subgraph's node set. -/
theorem tight_subset_loose (g : RepositoryGraph) (ents : List String) :
    ((g.make_subgraph_related_to ents true).2).actors ⊆
      ((g.make_subgraph_related_to ents false).2).actors := by
  rw [make_subgraph_related_to_true, make_subgraph_related_to_false]
  intro x hx
  rcases Finset.mem_union.mp hx with h | h
  · exact mem_dfs_graph_scan.mpr
      ((mem_forward_scan.mp h).mono Finset.subset_union_left
        (fun a n hn => List.mem_append.mpr (Or.inl hn)))
  · exact mem_dfs_graph_scan.mpr
      ((mem_backward_scan.mp h).mono Finset.subset_union_right
        (fun a n hn => List.mem_append.mpr (Or.inr hn)))

/-- In tight mode, every visited node is an endpoint of an edge whose two
endpoints are both visited (needs the node-set and reverse-index
invariants of the source graph). -/
theorem tight_seen_endpoint (g : RepositoryGraph) (ents : List String)
    (hNM : nodesMatchEdges g) (hRC : reverseConsistent g) (v : String)
    (hv : v ∈ (g.forward_scan (g.collect_actors_for_entities ents).1).1 ∪
      (g.backward_scan (g.collect_actors_for_entities ents).2).1) :
    ∃ e ∈ g.edges, (e.1 = v ∨ e.2.2 = v) ∧
      e.1 ∈ (g.forward_scan (g.collect_actors_for_entities ents).1).1 ∪
        (g.backward_scan (g.collect_actors_for_entities ents).2).1 ∧
      e.2.2 ∈ (g.forward_scan (g.collect_actors_for_entities ents).1).1 ∪
        (g.backward_scan (g.collect_actors_for_entities ents).2).1 := by
  have hNM2 := nodesMatchEdges_iff.mp hNM
  have hRC2 := reverseConsistent_iff.mp hRC
  -- a component seed sits in both seed sets; one incident edge survives
  have hcomp : ∀ w, w ∈ (g.collect_actors_for_entities ents).1 →
      w ∈ (g.collect_actors_for_entities ents).2 → w ∈ g.actors →
      ∃ e ∈ g.edges, (e.1 = w ∨ e.2.2 = w) ∧
        e.1 ∈ (g.forward_scan (g.collect_actors_for_entities ents).1).1 ∪
          (g.backward_scan (g.collect_actors_for_entities ents).2).1 ∧
        e.2.2 ∈ (g.forward_scan (g.collect_actors_for_entities ents).1).1 ∪
          (g.backward_scan (g.collect_actors_for_entities ents).2).1 := by
    intro w hwF hwB hact
    rcases (hNM2 w).mp hact with ⟨e, he, hor⟩
    obtain ⟨a, m, b⟩ := e
    rcases hor with h1 | h1
    · dsimp only at h1
      subst h1
      refine ⟨(a, m, b), he, Or.inl rfl, ?_, ?_⟩
      · exact Finset.mem_union_left _ (mem_forward_scan.mpr (Reaches.base hwF))
      · refine Finset.mem_union_left _ (mem_forward_scan.mpr ?_)
        exact Reaches.step (Reaches.base hwF) (mem_fwdAdj.mpr ⟨m, he⟩)
    · dsimp only at h1
      subst h1
      refine ⟨(a, m, b), he, Or.inr rfl, ?_, ?_⟩
      · refine Finset.mem_union_right _ (mem_backward_scan.mpr ?_)
        refine Reaches.step (Reaches.base hwB) (mem_bwdAdj.mpr ?_)
        exact (hRC2 b a).mpr ⟨m, he⟩
      · exact Finset.mem_union_right _ (mem_backward_scan.mpr (Reaches.base hwB))
  rcases Finset.mem_union.mp hv with h | h
  · have hreach := mem_forward_scan.mp h
    clear hv h
    induction hreach with
    | @base w hw =>
        rcases mem_collect_forward.mp hw with ⟨e0, he0, hcase⟩
        rcases hcase with ⟨hact, rfl⟩ | ⟨hnact, s, hs⟩
        · exact hcomp _ hw
            (mem_collect_backward.mpr ⟨w, he0, Or.inl ⟨hact, rfl⟩⟩) hact
        · refine ⟨(s, e0, w), hs, Or.inr rfl, ?_, ?_⟩
          · refine Finset.mem_union_right _ (mem_backward_scan.mpr ?_)
            exact Reaches.base
              (mem_collect_backward.mpr ⟨e0, he0, Or.inr ⟨hnact, w, hs⟩⟩)
          · exact Finset.mem_union_left _ (mem_forward_scan.mpr (Reaches.base hw))
    | @step u w hr hn ih =>
        rcases mem_fwdAdj.mp hn with ⟨m, hm⟩
        refine ⟨(u, m, w), hm, Or.inr rfl, ?_, ?_⟩
        · exact Finset.mem_union_left _ (mem_forward_scan.mpr hr)
        · exact Finset.mem_union_left _ (mem_forward_scan.mpr (hr.step hn))
  · have hreach := mem_backward_scan.mp h
    clear hv h
    induction hreach with
    | @base w hw =>
        rcases mem_collect_backward.mp hw with ⟨e0, he0, hcase⟩
        rcases hcase with ⟨hact, rfl⟩ | ⟨hnact, t, ht⟩
        · exact hcomp _
            (mem_collect_forward.mpr ⟨w, he0, Or.inl ⟨hact, rfl⟩⟩) hw hact
        · refine ⟨(w, e0, t), ht, Or.inl rfl, ?_, ?_⟩
          · exact Finset.mem_union_right _ (mem_backward_scan.mpr (Reaches.base hw))
          · refine Finset.mem_union_left _ (mem_forward_scan.mpr ?_)
            exact Reaches.base
              (mem_collect_forward.mpr ⟨e0, he0, Or.inr ⟨hnact, w, ht⟩⟩)
    | @step u w hr hn ih =>
        have hrev := mem_bwdAdj.mp hn
        rcases (hRC2 u w).mp hrev with ⟨m, hm⟩
        refine ⟨(w, m, u), hm, Or.inl rfl, ?_, ?_⟩
        · exact Finset.mem_union_right _ (mem_backward_scan.mpr (hr.step hn))
        · exact Finset.mem_union_right _ (mem_backward_scan.mpr hr)

/-- In loose mode, every visited node is an endpoint of an edge whose two
endpoints are both visited. -/
theorem loose_seen_endpoint (g : RepositoryGraph) (ents : List String)
    (hNM : nodesMatchEdges g) (hRC : reverseConsistent g) (v : String)
    (hv : v ∈ (g.dfs_graph_scan ((g.collect_actors_for_entities ents).1 ∪
      (g.collect_actors_for_entities ents).2)).1) :
    ∃ e ∈ g.edges, (e.1 = v ∨ e.2.2 = v) ∧
      e.1 ∈ (g.dfs_graph_scan ((g.collect_actors_for_entities ents).1 ∪
        (g.collect_actors_for_entities ents).2)).1 ∧
      e.2.2 ∈ (g.dfs_graph_scan ((g.collect_actors_for_entities ents).1 ∪
        (g.collect_actors_for_entities ents).2)).1 := by
  have hNM2 := nodesMatchEdges_iff.mp hNM
  have hRC2 := reverseConsistent_iff.mp hRC
  have hreach := mem_dfs_graph_scan.mp hv
  clear hv
  induction hreach with
  | @base w hw =>
      have hwseen : w ∈ (g.dfs_graph_scan ((g.collect_actors_for_entities ents).1 ∪
          (g.collect_actors_for_entities ents).2)).1 :=
        mem_dfs_graph_scan.mpr (Reaches.base hw)
      have hcomp : w ∈ g.actors →
          ∃ e ∈ g.edges, (e.1 = w ∨ e.2.2 = w) ∧
            e.1 ∈ (g.dfs_graph_scan ((g.collect_actors_for_entities ents).1 ∪
              (g.collect_actors_for_entities ents).2)).1 ∧
            e.2.2 ∈ (g.dfs_graph_scan ((g.collect_actors_for_entities ents).1 ∪
              (g.collect_actors_for_entities ents).2)).1 := by
        intro hact
        rcases (hNM2 w).mp hact with ⟨e, he, hor⟩
        obtain ⟨a, m, b⟩ := e
        rcases hor with h1 | h1
        · dsimp only at h1
          subst h1
          refine ⟨(a, m, b), he, Or.inl rfl, hwseen, ?_⟩
          refine mem_dfs_graph_scan.mpr (Reaches.step (Reaches.base hw) ?_)
          exact List.mem_append.mpr (Or.inl (mem_fwdAdj.mpr ⟨m, he⟩))
        · dsimp only at h1
          subst h1
          refine ⟨(a, m, b), he, Or.inr rfl, ?_, hwseen⟩
          refine mem_dfs_graph_scan.mpr (Reaches.step (Reaches.base hw) ?_)
          exact List.mem_append.mpr
            (Or.inr (mem_bwdAdj.mpr ((hRC2 b a).mpr ⟨m, he⟩)))
      rcases Finset.mem_union.mp hw with hwF | hwB
      · rcases mem_collect_forward.mp hwF with ⟨e0, he0, hcase⟩
        rcases hcase with ⟨hact, rfl⟩ | ⟨hnact, s, hs⟩
        · exact hcomp hact
        · refine ⟨(s, e0, w), hs, Or.inr rfl, ?_, hwseen⟩
          refine mem_dfs_graph_scan.mpr (Reaches.base ?_)
          exact Finset.mem_union_right _
            (mem_collect_backward.mpr ⟨e0, he0, Or.inr ⟨hnact, w, hs⟩⟩)
      · rcases mem_collect_backward.mp hwB with ⟨e0, he0, hcase⟩
        rcases hcase with ⟨hact, rfl⟩ | ⟨hnact, t, ht⟩
        · exact hcomp hact
        · refine ⟨(w, e0, t), ht, Or.inl rfl, hwseen, ?_⟩
          refine mem_dfs_graph_scan.mpr (Reaches.base ?_)
          exact Finset.mem_union_left _
            (mem_collect_forward.mpr ⟨e0, he0, Or.inr ⟨hnact, w, ht⟩⟩)
  | @step u w hr hn ih =>
      rcases List.mem_append.mp hn with h1 | h1
      · rcases mem_fwdAdj.mp h1 with ⟨m, hm⟩
        refine ⟨(u, m, w), hm, Or.inr rfl, ?_, ?_⟩
        · exact mem_dfs_graph_scan.mpr hr
        · exact mem_dfs_graph_scan.mpr (hr.step hn)
      · rcases (hRC2 u w).mp (mem_bwdAdj.mp h1) with ⟨m, hm⟩
        refine ⟨(w, m, u), hm, Or.inl rfl, ?_, ?_⟩
        · exact mem_dfs_graph_scan.mpr (hr.step hn)
        · exact mem_dfs_graph_scan.mpr hr

/-- **C6.** The node set is exactly the set of edge endpoints for every
graph the public operations produce: graphs built from descriptors,
graphs after `add_edge`, and extracted subgraphs of graphs satisfying the
invariants. -/
theorem node_set_is_edge_endpoints :
    (∀ actor_definitions : List ActorDef,
      nodesMatchEdges (construct_graph_from_actors actor_definitions)) ∧
    (∀ (g : RepositoryGraph) (s m t : String), nodesMatchEdges g →
      nodesMatchEdges (g.add_edge s m t)) ∧
    (∀ (g : RepositoryGraph) (ents : List String) (tight : Bool),
      nodesMatchEdges g → reverseConsistent g →
      nodesMatchEdges ((g.make_subgraph_related_to ents tight).2)) := by
  refine ⟨?_, ?_, ?_⟩
  · intro actor_definitions
    rw [nodesMatchEdges_iff]
    intro a
    rw [mem_construct_actors]
    have hedges : ∀ tr : String × String × String,
        tr ∈ (construct_graph_from_actors actor_definitions).edges ↔
          tr ∈ constructTriples actor_definitions := by
      intro tr
      rw [construct_eq_addTriples, mem_addTriples_edges]
      simp [RepositoryGraph.emptyGraph]
    constructor
    · rintro ⟨tr, htr, h⟩
      refine ⟨tr, (hedges tr).mpr htr, ?_⟩
      rcases h with h | h
      · exact Or.inl h.symm
      · exact Or.inr h.symm
    · rintro ⟨e, he, h⟩
      refine ⟨e, (hedges e).mp he, ?_⟩
      rcases h with h | h
      · exact Or.inl h.symm
      · exact Or.inr h.symm
  · intro g s m t h
    unfold nodesMatchEdges at h ⊢
    simp only [RepositoryGraph.add_edge, Finset.image_insert, h]
    ext a
    simp only [Finset.mem_insert, Finset.mem_union]
    tauto
  · intro g ents tight hNM hRC
    rw [nodesMatchEdges_iff]
    intro a
    cases tight
    · rw [make_subgraph_related_to_false]
      constructor
      · intro ha
        rcases loose_seen_endpoint g ents hNM hRC a ha with ⟨e, he, hor, h1, h2⟩
        exact ⟨e, mem_subgraph_core_edges.mpr ⟨he, h1, h2⟩, hor⟩
      · rintro ⟨e, he, hor⟩
        rcases mem_subgraph_core_edges.mp he with ⟨_, h1, h2⟩
        rcases hor with rfl | rfl
        · exact h1
        · exact h2
    · rw [make_subgraph_related_to_true]
      constructor
      · intro ha
        rcases tight_seen_endpoint g ents hNM hRC a ha with ⟨e, he, hor, h1, h2⟩
        exact ⟨e, mem_subgraph_core_edges.mpr ⟨he, h1, h2⟩, hor⟩
      · rintro ⟨e, he, hor⟩
        rcases mem_subgraph_core_edges.mp he with ⟨_, h1, h2⟩
        rcases hor with rfl | rfl
        · exact h1
        · exact h2

/-- Witness for C6 at concrete inputs, the invariant hypotheses checked
by evaluation. -/
theorem node_set_is_edge_endpoints_witness :
    nodesMatchEdges (construct_graph_from_actors dupDefs) ∧
    nodesMatchEdges (RepositoryGraph.emptyGraph.add_edge "A" "X" "B") ∧
    nodesMatchEdges ((RepositoryGraph.emptyGraph.add_edge "A" "X" "B").add_edge
      "B" "Y" "C") ∧
    nodesMatchEdges (((RepositoryGraph.emptyGraph.add_edge "A" "X" "B").make_subgraph_related_to
      ["A"] false).2) :=
  ⟨node_set_is_edge_endpoints.1 dupDefs,
   by decide,
   node_set_is_edge_endpoints.2.1 (RepositoryGraph.emptyGraph.add_edge "A" "X" "B")
     "B" "Y" "C" (by decide),
   node_set_is_edge_endpoints.2.2 (RepositoryGraph.emptyGraph.add_edge "A" "X" "B")
     ["A"] false (by decide) (by decide)⟩

theorem mem_iter_edges {g : RepositoryGraph} {tr : String × String × String} :
    tr ∈ g.iter_edges ↔ tr ∈ g.edges := by
  simp only [RepositoryGraph.iter_edges, List.mem_flatMap, List.mem_map,
    mem_sortedList]
  constructor
  · rintro ⟨s, hs, t, ht, m, hm, rfl⟩
    simp only [RepositoryGraph.labelSet, Finset.mem_image, Finset.mem_filter] at hm
    rcases hm with ⟨e, ⟨he, rfl, rfl⟩, rfl⟩
    exact he
  · intro htr
    refine ⟨tr.1, ?_, tr.2.2, ?_, tr.2.1, ?_, rfl⟩
    · exact Finset.mem_image.mpr ⟨tr, htr, rfl⟩
    · exact Finset.mem_image.mpr ⟨tr, Finset.mem_filter.mpr ⟨htr, rfl⟩, rfl⟩
    · exact Finset.mem_image.mpr ⟨tr, Finset.mem_filter.mpr ⟨htr, rfl, rfl⟩, rfl⟩

theorem iter_edges_nodup (g : RepositoryGraph) : g.iter_edges.Nodup := by
  unfold RepositoryGraph.iter_edges
  rw [List.nodup_flatMap]
  constructor
  · intro s hs
    rw [List.nodup_flatMap]
    constructor
    · intro t ht
      exact (sortedList_nodup _).map
        (fun m1 m2 h => by simpa using congrArg (fun p => p.2.1) h)
    · refine (sortedList_nodup _).pairwise_of_forall_ne ?_
      intro t1 _ t2 _ hne l h1 h2
      rcases List.mem_map.mp h1 with ⟨m1, _, rfl⟩
      rcases List.mem_map.mp h2 with ⟨m2, _, heq⟩
      exact absurd (congrArg (fun p => p.2.2) heq).symm hne
  · refine (sortedList_nodup _).pairwise_of_forall_ne ?_
    intro s1 _ s2 _ hne l h1 h2
    rcases List.mem_flatMap.mp h1 with ⟨t1, _, hin1⟩
    rcases List.mem_flatMap.mp h2 with ⟨t2, _, hin2⟩
    rcases List.mem_map.mp hin1 with ⟨m1, _, rfl⟩
    rcases List.mem_map.mp hin2 with ⟨m2, _, heq⟩
    exact absurd (congrArg (fun p => p.1) heq).symm hne

theorem iter_edges_length (g : RepositoryGraph) :
    g.iter_edges.length = g.edges.card := by
  have h1 : g.iter_edges.toFinset = g.edges := by
    ext tr
    rw [List.mem_toFinset, mem_iter_edges]
  rw [← h1, List.toFinset_card_of_nodup (iter_edges_nodup g)]

theorem joinLines_append (xs ys : List String) (hxs : xs ≠ [])
    (hys : ys ≠ []) :
    joinLines (xs ++ ys) = joinLines xs ++ "\n" ++ joinLines ys := by
  induction xs with
  | nil => exact absurd rfl hxs
  | cons x xs ih =>
      cases xs with
      | nil =>
          cases ys with
          | nil => exact absurd rfl hys
          | cons y ys => simp [joinLines]
      | cons x2 xs2 =>
          have h2 := ih (by simp)
          simp only [List.cons_append] at h2 ⊢
          rw [joinLines, h2, joinLines]
          simp only [String.append_assoc]

/-- Prefix the first line with the single space the Python format template
inserts after each newline placeholder (a bare space line if there are no
lines at all). -/
def spacePrefixFirst : List String → List String
  | [] => [" "]
  | x :: xs => (" " ++ x) :: xs

theorem spacePrefixFirst_ne_nil (xs : List String) :
    spacePrefixFirst xs ≠ [] := by
  cases xs <;> simp [spacePrefixFirst]

theorem joinLines_spacePrefixFirst (xs : List String) :
    joinLines (spacePrefixFirst xs) = " " ++ joinLines xs := by
  cases xs with
  | nil => decide
  | cons x xs =>
      cases xs with
      | nil => rfl
      | cons y ys =>
          show (" " ++ x) ++ "\n" ++ joinLines (y :: ys) =
            " " ++ (x ++ "\n" ++ joinLines (y :: ys))
          simp only [String.append_assoc]

theorem newline_space_append (x : String) :
    "\n " ++ x = "\n" ++ (" " ++ x) := by
  rw [← String.append_assoc]
  have h : ("\n" ++ " " : String) = "\n " := by decide
  rw [h]

/-- The output text as the claim C8 describes it: the four header lines,
one bare node-declaration line per node, one bare edge line per
(edge, message) combination, and the bare footer line, joined by
newlines. -/
def dotClaimedText (g : RepositoryGraph) : String :=
  joinLines (["digraph \"leapp-actors\" \x7b", "nodesep=2", "ranksep=2",
    "rankdir=LR"] ++ dotNodeLines g ++ dotEdgeLines g ++ ["\x7d"]) ++ "\n"

/-- The output text as `into_dot` actually produces it: as in
`dotClaimedText`, except that the first node line, the first edge line
and the footer line each carry one leading space (a lone-space line when
a block is empty). -/
def dotAmendedText (g : RepositoryGraph) : String :=
  joinLines (["digraph \"leapp-actors\" \x7b", "nodesep=2", "ranksep=2",
    "rankdir=LR"] ++ spacePrefixFirst (dotNodeLines g) ++
    spacePrefixFirst (dotEdgeLines g) ++ [" \x7d"]) ++ "\n"

/-- **C8, counterexample.** On the one-edge graph `A -> B`, the rendered
text is not the text the claimed grammar prescribes (the lines carrying
the template's leading spaces differ). -/
theorem into_dot_claimed_counterexample :
    (RepositoryGraph.emptyGraph.add_edge "A" "X" "B").into_dot ≠
      dotClaimedText (RepositoryGraph.emptyGraph.add_edge "A" "X" "B") := by
  decide

/-- **C8, amended.** The serializer output is exactly the claimed line
grammar with one correction: the template
`'{header}\n {nodes}\n {edges}\n {footer}\n'` puts a single space after
each of its three newlines, so the first node line, the first edge line
and the footer line carry one leading space (and an empty block renders
as a lone space line).  There is exactly one node line per node and one
edge line per (edge, message-type) combination. -/
theorem into_dot_format (g : RepositoryGraph) :
    g.into_dot = dotAmendedText g ∧
    (dotNodeLines g).length = g.actors.card ∧
    (dotEdgeLines g).length = g.edges.card := by
  refine ⟨?_, ?_, ?_⟩
  · unfold dotAmendedText RepositoryGraph.into_dot
    rw [joinLines_append _ _ (by simp) (by simp),
      joinLines_append _ _ (by simp) (spacePrefixFirst_ne_nil _),
      joinLines_append _ _ (by simp) (spacePrefixFirst_ne_nil _),
      joinLines_spacePrefixFirst, joinLines_spacePrefixFirst]
    have hhead : joinLines ["digraph \"leapp-actors\" \x7b", "nodesep=2",
        "ranksep=2", "rankdir=LR"] =
        "digraph \"leapp-actors\" \x7b\nnodesep=2\nranksep=2\nrankdir=LR" := by
      decide
    have hfoot : (joinLines [" \x7d"] : String) ++ "\n" = " " ++ ("\x7d" ++ "\n") := by
      decide
    rw [hhead]
    simp only [String.append_assoc, newline_space_append, hfoot]
  · simp [dotNodeLines, length_sortedList]
  · simp [dotEdgeLines, iter_edges_length]

/-- Witness for C7: a consistent concrete graph stays consistent through
`add_edge`. -/
theorem reverse_index_consistency_witness :
    reverseConsistent ((RepositoryGraph.emptyGraph.add_edge "A" "X" "B").add_edge
      "B" "Y" "C") :=
  reverse_index_consistency.2.1 (RepositoryGraph.emptyGraph.add_edge "A" "X" "B")
    "B" "Y" "C" (by decide)
